import Mathlib

/-!
# Verification of the FlowAgent Studio execution core

Shallow embedding of the flow-execution engine of `src/App.tsx` together
with the Generation Client interface of `src/services/geminiService.ts`:
the graph store operations (`addNode`, `deleteNode`, `updateNodeData`,
`handleEndConnection`), root discovery (`getRootNodes`), the
level-synchronous breadth-first run (`runFlow` / `processQueue`) and the
reset operation (`handleReset`).

Modelling conventions:
* React state updates (`setNodes` with a functional update keyed by node
  id) become pure per-node list updates (`updateNode`).
* The asynchronous Generation Client is an oracle
  `gen : String → String → Except String String` taking the input text and
  the system instruction and returning either the generated text or a
  failure message (`generateAgentResponse` throws `Error(message)`).
* The `Promise.all` fan-out inside one level is serialised: a level is a
  left fold of `processEntry` over the frontier, so "settle order" is the
  queue order.  Recursion over levels carries an explicit fuel counter;
  `none` means the fuel was exhausted (the reference code would still be
  recursing), `some` means the run finished and `isRunning` was cleared.
* `Date.now()` becomes an explicit `now : Nat` argument of `addNode`.
* Invocations of the Generation Client are recorded in a trace, one list
  of `(nodeId, input)` pairs per level, so that claims about which nodes
  are invoked (and with which inputs) can be stated.
-/

namespace FlowAgent

/-- Node execution status, as used by `App.tsx` and `AgentNodeCard.tsx`. -/
inductive NodeStatus where
  | idle
  | running
  | completed
  | error
deriving DecidableEq, Repr

/-- The per-node payload `node.data` of `App.tsx`: label, system
instruction (persona), last input, last output, status, and the optional
error message (absent — `none` — unless a run recorded a failure). -/
structure NodeData where
  label : String
  systemInstruction : String
  input : String
  output : String
  status : NodeStatus
  errorMessage : Option String
deriving DecidableEq, Repr

/-- 2D canvas position; owned by presentation, irrelevant to execution,
carried through unchanged. -/
structure Position where
  x : Int
  y : Int
deriving DecidableEq, Repr

/-- An agent node of the graph store. -/
structure AgentNode where
  id : String
  position : Position
  data : NodeData
deriving DecidableEq, Repr

/-- A directed connection `source → target` between node ids. -/
structure Connection where
  id : String
  source : String
  target : String
deriving DecidableEq, Repr

/-- The Generation Client (`generateAgentResponse` of
`src/services/geminiService.ts`): from an input text and a system
instruction to generated text, or a failure carrying a message. -/
def GenClient : Type := String → String → Except String String

/-- `addNode` (App.tsx lines 49-63).  The fresh id is derived from the
clock: `id = "node-" ++ Date.now()`; the clock reading is the explicit
argument `now`. -/
def addNode (now : Nat) (nodes : List AgentNode) : List AgentNode :=
  nodes ++ [{ id := "node-" ++ toString now,
              position := { x := 200 + nodes.length * 20, y := 200 + nodes.length * 20 },
              data := { label := "Agent " ++ toString (nodes.length + 1),
                        systemInstruction := "", input := "", output := "",
                        status := .idle, errorMessage := none } }]

/-- `deleteNode` (App.tsx lines 65-68): removes the node and every
connection touching it (cascading). -/
def deleteNode (id : String) (nodes : List AgentNode) (conns : List Connection) :
    List AgentNode × List Connection :=
  (nodes.filter (fun n => n.id != id),
   conns.filter (fun c => c.source != id && c.target != id))

/-- Update the data of every node whose id matches (the functional
`setNodes` update pattern used throughout App.tsx, e.g. `updateNodeData`
at lines 70-72 and the per-node status writes of `processQueue`). -/
def updateNode (nodeId : String) (f : NodeData → NodeData) (nodes : List AgentNode) :
    List AgentNode :=
  nodes.map (fun n => if n.id = nodeId then { n with data := f n.data } else n)

/-- The connection-drag state relevant to `handleEndConnection`. -/
structure ConnectionState where
  isConnecting : Bool
  sourceNodeId : Option String
deriving DecidableEq, Repr

/-- `handleEndConnection` (App.tsx lines 144-164), the `addConnection`
operation: when a drag is in progress, adds `source → target` unless it
would be a self-loop or a duplicate `(source, target)` pair; both
rejections are silent no-ops. -/
def handleEndConnection (cs : ConnectionState) (freshId : String) (targetId : String)
    (conns : List Connection) : List Connection :=
  match cs.isConnecting, cs.sourceNodeId with
  | true, some sourceId =>
    if sourceId == targetId then conns
    else if conns.any (fun c => c.source == sourceId && c.target == targetId) then conns
    else conns ++ [{ id := freshId, source := sourceId, target := targetId }]
  | _, _ => conns

/-- `getRootNodes` (App.tsx lines 171-174): the nodes whose id is the
target of no connection. -/
def getRootNodes (nodes : List AgentNode) (conns : List Connection) : List AgentNode :=
  let targets := conns.map (fun c => c.target)
  nodes.filter (fun n => !(targets.contains n.id))

/-- Status write of step 4a of the run: mark running, record the input. -/
def markRunning (input : String) (d : NodeData) : NodeData :=
  { d with status := .running, input := input }

/-- Status write on success: mark completed, record the output. -/
def markCompleted (output : String) (d : NodeData) : NodeData :=
  { d with status := .completed, output := output }

/-- Status write on failure: mark error, record the message. -/
def markError (msg : String) (d : NodeData) : NodeData :=
  { d with status := .error, errorMessage := some msg }

/-- Accumulator for one level of `processQueue`: the evolving node list,
the next frontier being built, and the trace of Generation Client
invocations `(nodeId, input)` made so far in this level. -/
structure LevelAcc where
  nodes : List AgentNode
  nextQueue : List (String × String)
  trace : List (String × String)
deriving DecidableEq, Repr

/-- Processing of one `{ nodeId, input }` frontier entry (the body of the
`Promise.all` callback, App.tsx lines 223-264): look the node up (a
missing node is skipped), mark it running with the given input, invoke the
Generation Client with the input and the node's system instruction; on
success mark it completed, record the output and push `(target, output)`
for every outgoing connection onto the next frontier; on failure mark it
error and record the message, contributing nothing to the next frontier. -/
def processEntry (conns : List Connection) (gen : GenClient)
    (acc : LevelAcc) (entry : String × String) : LevelAcc :=
  match acc.nodes.find? (fun n => n.id == entry.1) with
  | none => acc
  | some currentNode =>
    let nodes1 := updateNode entry.1 (markRunning entry.2) acc.nodes
    match gen entry.2 currentNode.data.systemInstruction with
    | .ok output =>
      { nodes := updateNode entry.1 (markCompleted output) nodes1,
        nextQueue := acc.nextQueue ++
          ((conns.filter (fun c => c.source == entry.1)).map (fun c => (c.target, output))),
        trace := acc.trace ++ [(entry.1, entry.2)] }
    | .error msg =>
      { nodes := updateNode entry.1 (markError msg) nodes1,
        nextQueue := acc.nextQueue,
        trace := acc.trace ++ [(entry.1, entry.2)] }

/-- One level of the run: fold `processEntry` over the frontier starting
from an empty next frontier and an empty level trace. -/
def processLevel (conns : List Connection) (gen : GenClient)
    (nodes : List AgentNode) (queue : List (String × String)) : LevelAcc :=
  queue.foldl (processEntry conns gen) { nodes := nodes, nextQueue := [], trace := [] }

/-- `processQueue` (App.tsx lines 215-272): an empty frontier ends the run
(`setIsRunning(false)`); otherwise the level is executed, and the run
either ends (empty next frontier) or recurses.  The explicit fuel bounds
the number of levels: `none` means the fuel ran out (the reference code
would still be running), `some (nodes, traces)` means the run finished
with the given final nodes and per-level invocation traces. -/
def processQueue (conns : List Connection) (gen : GenClient) :
    Nat → List AgentNode → List (String × String) →
    Option (List AgentNode × List (List (String × String)))
  | _, nodes, [] => some (nodes, [])
  | 0, _, _ :: _ => none
  | fuel + 1, nodes, e :: rest =>
    let acc := processLevel conns gen nodes (e :: rest)
    if acc.nextQueue.isEmpty then some (acc.nodes, [acc.trace])
    else
      match processQueue conns gen fuel acc.nodes acc.nextQueue with
      | none => none
      | some (finalNodes, traces) => some (finalNodes, acc.trace :: traces)

/-- The application state relevant to the execution engine. -/
structure FlowState where
  nodes : List AgentNode
  connections : List Connection
  globalInput : String
  isRunning : Bool
deriving DecidableEq, Repr

/-- Observable outcome of a `runFlow` call: the final nodes, the final
value of the `isRunning` flag, whether the `NoStartNode` alert was shown,
and the per-level Generation Client invocation traces. -/
structure RunReport where
  nodes : List AgentNode
  isRunning : Bool
  noStartNodeAlert : Bool
  trace : List (List (String × String))
deriving DecidableEq, Repr

/-- The unconditional status reset at the start of a run (App.tsx line
181): every status back to `idle`, `errorMessage` cleared; inputs and
outputs are kept. -/
def resetForRun (nodes : List AgentNode) : List AgentNode :=
  nodes.map (fun n => { n with data := { n.data with status := .idle, errorMessage := none } })

/-- `runFlow` (App.tsx lines 176-275).  A re-entrant call while
`isRunning` is set is a no-op.  Otherwise: reset statuses, find the roots;
a non-empty graph without roots aborts with the `NoStartNode` alert;
otherwise seed the frontier with `(rootId, globalInput)` pairs and process
it level by level. -/
def runFlow (gen : GenClient) (fuel : Nat) (st : FlowState) : Option RunReport :=
  if st.isRunning then
    some { nodes := st.nodes, isRunning := true, noStartNodeAlert := false, trace := [] }
  else
    let nodes0 := resetForRun st.nodes
    let rootNodes := getRootNodes st.nodes st.connections
    if rootNodes.length = 0 ∧ 0 < st.nodes.length then
      some { nodes := nodes0, isRunning := false, noStartNodeAlert := true, trace := [] }
    else
      match processQueue st.connections gen fuel nodes0
          (rootNodes.map (fun n => (n.id, st.globalInput))) with
      | none => none
      | some (finalNodes, traces) =>
        some { nodes := finalNodes, isRunning := false, noStartNodeAlert := false,
               trace := traces }

/-- `handleReset` (App.tsx lines 277-280): every node back to `idle` with
empty input and output (the error message is not touched), and the
running flag cleared. -/
def handleReset (st : FlowState) : FlowState :=
  { st with
    nodes := st.nodes.map (fun n =>
      { n with data := { n.data with status := .idle, output := "", input := "" } }),
    isRunning := false }

/-- One directed step of the connection relation, on node ids. -/
def Edge (conns : List Connection) (u v : String) : Prop :=
  ∃ c ∈ conns, c.source = u ∧ c.target = v

/-- Zero or more connection steps. -/
def Reaches (conns : List Connection) : String → String → Prop :=
  Relation.ReflTransGen (Edge conns)

/-- A node id is reachable iff some root node reaches it along
connections. -/
def ReachableFromRoot (nodes : List AgentNode) (conns : List Connection) (x : String) : Prop :=
  ∃ r ∈ getRootNodes nodes conns, Reaches conns r.id x

/-- Acyclicity of the connection relation, phrased as the existence of a
topological ranking (every connection strictly increases the rank).  For a
finite list of connections this is the standard equivalent of the absence
of directed cycles. -/
def Acyclic (conns : List Connection) : Prop :=
  ∃ rank : String → Nat, ∀ c ∈ conns, rank c.source < rank c.target

/-- Two node lists agree position by position, except that the data of
nodes whose id is `x` may differ (the ids themselves always agree).  Used
to express that a failing invocation affects only its own node. -/
inductive AgreeExcept (x : String) : List AgentNode → List AgentNode → Prop where
  | nil : AgreeExcept x [] []
  | cons {n m : AgentNode} {ns ms : List AgentNode} (hid : n.id = m.id)
      (hne : n.id ≠ x → n = m) (h : AgreeExcept x ns ms) :
      AgreeExcept x (n :: ns) (m :: ms)

/-- Two node lists agree position by position, except that the data of
nodes whose id satisfies `P` may differ (the ids themselves always
agree).  Used to express that a run leaves every node outside the
reachable set untouched. -/
inductive AgreeOutside (P : String → Prop) : List AgentNode → List AgentNode → Prop where
  | nil : AgreeOutside P [] []
  | cons {n m : AgentNode} {ns ms : List AgentNode} (hid : n.id = m.id)
      (hout : ¬ P n.id → n = m) (h : AgreeOutside P ns ms) :
      AgreeOutside P (n :: ns) (m :: ms)

/-! ## Concrete fixtures used by witnesses and counterexamples -/

/-- A fresh idle node with the given id and system instruction. -/
def testNode (id si : String) : AgentNode :=
  { id := id, position := { x := 0, y := 0 },
    data := { label := id, systemInstruction := si, input := "", output := "",
              status := .idle, errorMessage := none } }

/-- A Generation Client that always succeeds, echoing its input with a mark. -/
def genEcho : GenClient := fun i _ => Except.ok (i ++ "!")

/-- A Generation Client that always fails with message `boom`. -/
def genBoom : GenClient := fun _ _ => Except.error "boom"

/-- A one-node state whose node carries an error status and message. -/
def errState : FlowState :=
  { nodes := [{ id := "a", position := { x := 0, y := 0 },
                data := { label := "a", systemInstruction := "", input := "i", output := "o",
                          status := .error, errorMessage := some "boom" } }],
    connections := [], globalInput := "", isRunning := false }

/-- A two-node chain `a → b` used as a concrete run. -/
def chainState : FlowState :=
  { nodes := [testNode "a" "sa", testNode "b" "sb"],
    connections := [{ id := "c1", source := "a", target := "b" }],
    globalInput := "hi", isRunning := false }

/-- The report produced by running `genEcho` on `chainState`. -/
def chainReport : RunReport :=
  { nodes := [{ id := "a", position := { x := 0, y := 0 },
                data := { label := "a", systemInstruction := "sa", input := "hi",
                          output := "hi!", status := .completed, errorMessage := none } },
              { id := "b", position := { x := 0, y := 0 },
                data := { label := "b", systemInstruction := "sb", input := "hi!",
                          output := "hi!!", status := .completed, errorMessage := none } }],
    isRunning := false, noStartNodeAlert := false,
    trace := [[("a", "hi")], [("b", "hi!")]] }

/-- Three idle nodes used by the failure-locality and fan-in scenarios. -/
def trioNodes : List AgentNode := [testNode "a" "sa", testNode "b" "sb", testNode "c" "sc"]

/-- One connection `a → c`. -/
def aToC : Connection := { id := "c1", source := "a", target := "c" }

/-- One connection `b → c`. -/
def bToC : Connection := { id := "c2", source := "b", target := "c" }

/-- A Generation Client that fails (with `boom`) exactly on the system
instruction `sa` and otherwise echoes its input with a mark. -/
def genSel : GenClient :=
  fun i s => if s == "sa" then Except.error "boom" else Except.ok (i ++ ">")

/-- A two-node chain `a → b` whose run will fail at the root. -/
def cexState : FlowState :=
  { nodes := [testNode "a" "x", testNode "b" "y"],
    connections := [{ id := "c1", source := "a", target := "b" }],
    globalInput := "g", isRunning := false }

/-- The report produced by running the always-failing client on
`cexState`: `a` errors, the reachable `b` stays idle. -/
def cexReport : RunReport :=
  { nodes := [{ id := "a", position := { x := 0, y := 0 },
                data := { label := "a", systemInstruction := "x", input := "g",
                          output := "", status := .error, errorMessage := some "boom" } },
              { id := "b", position := { x := 0, y := 0 },
                data := { label := "b", systemInstruction := "y", input := "",
                          output := "", status := .idle, errorMessage := none } }],
    isRunning := false, noStartNodeAlert := false,
    trace := [[("a", "g")]] }

/-! ## Basic lemmas about per-node updates -/

theorem updateNode_nil (x : String) (f : NodeData → NodeData) :
    updateNode x f [] = [] := rfl

theorem updateNode_cons (x : String) (f : NodeData → NodeData) (n : AgentNode)
    (ns : List AgentNode) :
    updateNode x f (n :: ns) =
      (if n.id = x then { n with data := f n.data } else n) :: updateNode x f ns := rfl

theorem updateNode_map_id (x : String) (f : NodeData → NodeData) (ns : List AgentNode) :
    (updateNode x f ns).map (fun n => n.id) = ns.map (fun n => n.id) := by
  induction ns with
  | nil => rfl
  | cons n ns ih =>
    rw [updateNode_cons]
    by_cases h : n.id = x <;> simp [h, ih]

theorem updateNode_length (x : String) (f : NodeData → NodeData) (ns : List AgentNode) :
    (updateNode x f ns).length = ns.length := by
  simp [updateNode]

theorem updateNode_comp (x : String) (f g : NodeData → NodeData) (ns : List AgentNode) :
    updateNode x f (updateNode x g ns) = updateNode x (fun d => f (g d)) ns := by
  induction ns with
  | nil => rfl
  | cons n ns ih =>
    rw [updateNode_cons, updateNode_cons, updateNode_cons, ih]
    by_cases h : n.id = x <;> simp [h]

theorem find?_updateNode_ne (x y : String) (f : NodeData → NodeData) (ns : List AgentNode)
    (h : y ≠ x) :
    (updateNode x f ns).find? (fun n => n.id == y) = ns.find? (fun n => n.id == y) := by
  induction ns with
  | nil => rfl
  | cons n ns ih =>
    rw [updateNode_cons]
    by_cases hx : n.id = x
    · have hny : ¬ n.id = y := fun hy => h (hy.symm.trans hx)
      rw [List.find?_cons_of_neg _ (by simp [hx]; exact fun hxy => h hxy.symm),
          List.find?_cons_of_neg _ (by simp [hny])]
      exact ih
    · rw [if_neg hx]
      by_cases hy : n.id = y
      · rw [List.find?_cons_of_pos _ (by simp [hy]), List.find?_cons_of_pos _ (by simp [hy])]
      · rw [List.find?_cons_of_neg _ (by simp [hy]), List.find?_cons_of_neg _ (by simp [hy])]
        exact ih

theorem find?_updateNode_self (x : String) (f : NodeData → NodeData) (ns : List AgentNode) :
    (updateNode x f ns).find? (fun n => n.id == x) =
      (ns.find? (fun n => n.id == x)).map (fun n => { n with data := f n.data }) := by
  induction ns with
  | nil => rfl
  | cons n ns ih =>
    rw [updateNode_cons]
    by_cases hx : n.id = x
    · rw [if_pos hx,
          List.find?_cons_of_pos _ (by simp [hx]),
          List.find?_cons_of_pos _ (by simp [hx])]
      rfl
    · rw [if_neg hx,
          List.find?_cons_of_neg _ (by simp [hx]),
          List.find?_cons_of_neg _ (by simp [hx])]
      exact ih

theorem mem_updateNode_id (x : String) (f : NodeData → NodeData) (ns : List AgentNode)
    (P : NodeData → Prop) (hP : ∀ d, P (f d)) :
    ∀ m ∈ updateNode x f ns, m.id = x → P m.data := by
  intro m hm hid
  simp only [updateNode, List.mem_map] at hm
  obtain ⟨n, _, hm'⟩ := hm
  by_cases h : n.id = x
  · rw [← hm']
    simp only [h, if_pos]
    exact hP _
  · rw [← hm'] at hid
    rw [if_neg h] at hid
    exact absurd hid h

theorem processEntry_map_id (conns : List Connection) (gen : GenClient)
    (acc : LevelAcc) (e : String × String) :
    (processEntry conns gen acc e).nodes.map (fun n => n.id) =
      acc.nodes.map (fun n => n.id) := by
  unfold processEntry
  cases hf : acc.nodes.find? (fun n => n.id == e.1) with
  | none => rfl
  | some n0 =>
    cases hg : gen e.2 n0.data.systemInstruction with
    | ok out => simp only [hg]; simp [updateNode_map_id]
    | error msg => simp only [hg]; simp [updateNode_map_id]

theorem foldl_processEntry_map_id (conns : List Connection) (gen : GenClient)
    (L : List (String × String)) :
    ∀ acc : LevelAcc,
      ((L.foldl (processEntry conns gen) acc).nodes.map (fun n => n.id)) =
        acc.nodes.map (fun n => n.id) := by
  induction L with
  | nil => intro acc; rfl
  | cons e L ih =>
    intro acc
    rw [List.foldl_cons, ih, processEntry_map_id]

theorem resetForRun_map_id (ns : List AgentNode) :
    (resetForRun ns).map (fun n => n.id) = ns.map (fun n => n.id) := by
  simp [resetForRun, List.map_map, Function.comp]

theorem processEntry_trace_found (conns : List Connection) (gen : GenClient)
    (acc : LevelAcc) (e : String × String) (n : AgentNode)
    (hf : acc.nodes.find? (fun m => m.id == e.1) = some n) :
    (processEntry conns gen acc e).trace = acc.trace ++ [e] := by
  unfold processEntry
  rw [hf]
  dsimp only
  cases hg : gen e.2 n.data.systemInstruction with
  | ok out => rfl
  | error msg => rfl

theorem find?_of_mem_ids (ns : List AgentNode) (x : String)
    (h : x ∈ ns.map (fun n => n.id)) :
    ∃ n, ns.find? (fun m => m.id == x) = some n := by
  obtain ⟨n, hn, hid⟩ := List.mem_map.mp h
  have : (ns.find? (fun m => m.id == x)).isSome := by
    rw [List.find?_isSome]
    exact ⟨n, hn, by simp [hid]⟩
  exact Option.isSome_iff_exists.mp this

theorem foldl_trace_all_found (conns : List Connection) (gen : GenClient)
    (L : List (String × String)) :
    ∀ acc : LevelAcc, (∀ e ∈ L, e.1 ∈ acc.nodes.map (fun n => n.id)) →
      (L.foldl (processEntry conns gen) acc).trace = acc.trace ++ L := by
  induction L with
  | nil => intro acc _; simp
  | cons e L ih =>
    intro acc hall
    rw [List.foldl_cons]
    obtain ⟨n, hn⟩ := find?_of_mem_ids acc.nodes e.1 (hall e (List.mem_cons_self e L))
    have htr := processEntry_trace_found conns gen acc e n hn
    have hids : ∀ e2 ∈ L, e2.1 ∈ (processEntry conns gen acc e).nodes.map (fun m => m.id) := by
      intro e2 he2
      rw [processEntry_map_id]
      exact hall e2 (List.mem_cons_of_mem e he2)
    rw [ih _ hids, htr, List.append_assoc, List.singleton_append]

theorem processQueue_trace_head (conns : List Connection) (gen : GenClient)
    (fuel : Nat) (nodes : List AgentNode) (e : String × String)
    (rest : List (String × String)) (final : List AgentNode)
    (traces : List (List (String × String)))
    (h : processQueue conns gen fuel nodes (e :: rest) = some (final, traces)) :
    traces.headD [] = (processLevel conns gen nodes (e :: rest)).trace := by
  cases fuel with
  | zero => simp [processQueue] at h
  | succ f =>
    simp only [processQueue] at h
    by_cases hq : (processLevel conns gen nodes (e :: rest)).nextQueue.isEmpty
    · rw [if_pos hq] at h
      injection h with h'
      injection h' with h1 h2
      rw [← h2]
      rfl
    · rw [if_neg hq] at h
      cases hrec : processQueue conns gen f (processLevel conns gen nodes (e :: rest)).nodes
          (processLevel conns gen nodes (e :: rest)).nextQueue with
      | none => rw [hrec] at h; exact absurd h (by simp)
      | some out =>
        rw [hrec] at h
        injection h with h'
        have h2 := congrArg Prod.snd h'
        simp only at h2
        rw [← h2]
        rfl

/-! ## Lemmas for the locality of per-node failures -/

theorem agreeExcept_refl (x : String) : ∀ ns : List AgentNode, AgreeExcept x ns ns
  | [] => .nil
  | _ :: ns => .cons rfl (fun _ => rfl) (agreeExcept_refl x ns)

theorem agreeExcept_length {x : String} {ns ms : List AgentNode}
    (h : AgreeExcept x ns ms) : ns.length = ms.length := by
  induction h with
  | nil => rfl
  | cons hid hne h ih => simp [ih]

theorem agreeExcept_getElem {x : String} {ns ms : List AgentNode}
    (h : AgreeExcept x ns ms) :
    ∀ i (h1 : i < ns.length) (h2 : i < ms.length),
      ns[i].id = ms[i].id ∧ (ns[i].id ≠ x → ns[i] = ms[i]) := by
  induction h with
  | nil => intro i h1 _; exact absurd h1 (by simp)
  | @cons n m ns ms hid hne h ih =>
    intro i h1 h2
    cases i with
    | zero => exact ⟨hid, hne⟩
    | succ j =>
      simp only [List.getElem_cons_succ]
      exact ih j (by simpa using h1) (by simpa using h2)

theorem agreeExcept_find?_ne {x : String} (y : String) (hyx : y ≠ x)
    {ns ms : List AgentNode} (hag : AgreeExcept x ns ms) :
    ns.find? (fun n => n.id == y) = ms.find? (fun n => n.id == y) := by
  induction hag with
  | nil => rfl
  | @cons n m ns ms hid hne hag ih =>
    by_cases hy : n.id = y
    · have hnm : n = m := hne (fun hx => hyx (hy.symm.trans hx))
      rw [List.find?_cons_of_pos _ (by simp [hy]),
          List.find?_cons_of_pos _ (by simp [hid.symm.trans hy]), hnm]
    · have hmy : ¬ m.id = y := fun hmy => hy (hid.trans hmy)
      rw [List.find?_cons_of_neg _ (by simp [hy]), List.find?_cons_of_neg _ (by simp [hmy])]
      exact ih

theorem agreeExcept_updateNode {x : String} (y : String) (f : NodeData → NodeData)
    {ns ms : List AgentNode} (hag : AgreeExcept x ns ms) :
    AgreeExcept x (updateNode y f ns) (updateNode y f ms) := by
  induction hag with
  | nil => exact .nil
  | @cons n m ns ms hid hne hag ih =>
    rw [updateNode_cons, updateNode_cons]
    by_cases hny : n.id = y
    · have hmy : m.id = y := hid.symm.trans hny
      rw [if_pos hny, if_pos hmy]
      refine .cons hid ?_ ih
      intro hx
      have hnm : n = m := hne hx
      rw [hnm]
    · have hmy : ¬ m.id = y := fun h => hny (hid.trans h)
      rw [if_neg hny, if_neg hmy]
      exact .cons hid hne ih

theorem agreeExcept_updateNode_left {x : String} (f : NodeData → NodeData)
    {ns ms : List AgentNode} (hag : AgreeExcept x ns ms) :
    AgreeExcept x (updateNode x f ns) ms := by
  induction hag with
  | nil => exact .nil
  | @cons n m ns ms hid hne hag ih =>
    rw [updateNode_cons]
    by_cases hnx : n.id = x
    · rw [if_pos hnx]
      exact .cons hid (fun h => absurd hnx h) ih
    · rw [if_neg hnx]
      exact .cons hid hne ih

theorem processEntry_find?_ne (conns : List Connection) (gen : GenClient)
    (acc : LevelAcc) (e : String × String) (y : String) (he : e.1 ≠ y) :
    (processEntry conns gen acc e).nodes.find? (fun m => m.id == y) =
      acc.nodes.find? (fun m => m.id == y) := by
  unfold processEntry
  cases hf : acc.nodes.find? (fun n => n.id == e.1) with
  | none => rfl
  | some n0 =>
    dsimp only
    cases hg : gen e.2 n0.data.systemInstruction with
    | ok out =>
      dsimp only
      rw [find?_updateNode_ne _ _ _ _ (Ne.symm he), find?_updateNode_ne _ _ _ _ (Ne.symm he)]
    | error msg =>
      dsimp only
      rw [find?_updateNode_ne _ _ _ _ (Ne.symm he), find?_updateNode_ne _ _ _ _ (Ne.symm he)]

theorem foldl_find?_ne (conns : List Connection) (gen : GenClient)
    (L : List (String × String)) (y : String) (hL : ∀ e ∈ L, e.1 ≠ y) :
    ∀ acc : LevelAcc,
      (L.foldl (processEntry conns gen) acc).nodes.find? (fun m => m.id == y) =
        acc.nodes.find? (fun m => m.id == y) := by
  induction L with
  | nil => intro acc; rfl
  | cons e L ih =>
    intro acc
    rw [List.foldl_cons,
        ih (fun e2 he2 => hL e2 (List.mem_cons_of_mem e he2)),
        processEntry_find?_ne conns gen acc e y (hL e (List.mem_cons_self e L))]

theorem agreeExcept_processEntry (conns : List Connection) (gen : GenClient)
    {x : String} (e : String × String) (he : e.1 ≠ x) {acc1 acc2 : LevelAcc}
    (hag : AgreeExcept x acc1.nodes acc2.nodes) (hq : acc1.nextQueue = acc2.nextQueue) :
    AgreeExcept x (processEntry conns gen acc1 e).nodes (processEntry conns gen acc2 e).nodes
    ∧ (processEntry conns gen acc1 e).nextQueue = (processEntry conns gen acc2 e).nextQueue := by
  have hfind := agreeExcept_find?_ne e.1 he hag
  unfold processEntry
  rw [hfind]
  cases hf : acc2.nodes.find? (fun n => n.id == e.1) with
  | none => exact ⟨hag, hq⟩
  | some n0 =>
    dsimp only
    cases hg : gen e.2 n0.data.systemInstruction with
    | ok out =>
      exact ⟨agreeExcept_updateNode _ _ (agreeExcept_updateNode _ _ hag), by rw [hq]⟩
    | error msg =>
      exact ⟨agreeExcept_updateNode _ _ (agreeExcept_updateNode _ _ hag), hq⟩

theorem agreeExcept_foldl (conns : List Connection) (gen : GenClient)
    {x : String} (L : List (String × String)) (hL : ∀ e ∈ L, e.1 ≠ x) :
    ∀ {acc1 acc2 : LevelAcc}, AgreeExcept x acc1.nodes acc2.nodes →
      acc1.nextQueue = acc2.nextQueue →
      AgreeExcept x (L.foldl (processEntry conns gen) acc1).nodes
          (L.foldl (processEntry conns gen) acc2).nodes
        ∧ (L.foldl (processEntry conns gen) acc1).nextQueue =
            (L.foldl (processEntry conns gen) acc2).nextQueue := by
  induction L with
  | nil => intro acc1 acc2 hag hq; exact ⟨hag, hq⟩
  | cons e L ih =>
    intro acc1 acc2 hag hq
    obtain ⟨hag2, hq2⟩ :=
      agreeExcept_processEntry conns gen e (hL e (List.mem_cons_self e L)) hag hq
    exact ih (fun e2 he2 => hL e2 (List.mem_cons_of_mem e he2)) hag2 hq2

theorem processEntry_fail (conns : List Connection) (gen : GenClient)
    (acc : LevelAcc) (x input msg : String) (n : AgentNode)
    (hf : acc.nodes.find? (fun m => m.id == x) = some n)
    (hfail : gen input n.data.systemInstruction = Except.error msg) :
    (processEntry conns gen acc (x, input)).nodes
      = updateNode x (fun d => markError msg (markRunning input d)) acc.nodes
    ∧ (processEntry conns gen acc (x, input)).nextQueue = acc.nextQueue
    ∧ (processEntry conns gen acc (x, input)).trace = acc.trace ++ [(x, input)] := by
  unfold processEntry
  rw [hf]
  dsimp only
  rw [hfail]
  exact ⟨updateNode_comp x _ _ acc.nodes, rfl, rfl⟩

theorem processEntry_ok (conns : List Connection) (gen : GenClient)
    (acc : LevelAcc) (x input out : String) (n : AgentNode)
    (hf : acc.nodes.find? (fun m => m.id == x) = some n)
    (hok : gen input n.data.systemInstruction = Except.ok out) :
    (processEntry conns gen acc (x, input)).nodes
      = updateNode x (fun d => markCompleted out (markRunning input d)) acc.nodes
    ∧ (processEntry conns gen acc (x, input)).nextQueue
      = acc.nextQueue ++ (conns.filter (fun c => c.source == x)).map (fun c => (c.target, out))
    ∧ (processEntry conns gen acc (x, input)).trace = acc.trace ++ [(x, input)] := by
  unfold processEntry
  rw [hf]
  dsimp only
  rw [hok]
  exact ⟨updateNode_comp x _ _ acc.nodes, rfl, rfl⟩

theorem processEntry_preserves_id_prop (conns : List Connection) (gen : GenClient)
    {x : String} (P : NodeData → Prop) (e : String × String) (he : e.1 ≠ x)
    (acc : LevelAcc) (h : ∀ m ∈ acc.nodes, m.id = x → P m.data) :
    ∀ m ∈ (processEntry conns gen acc e).nodes, m.id = x → P m.data := by
  unfold processEntry
  cases hf : acc.nodes.find? (fun n => n.id == e.1) with
  | none => exact h
  | some n0 =>
    dsimp only
    cases hg : gen e.2 n0.data.systemInstruction with
    | ok out =>
      dsimp only
      rw [updateNode_comp]
      intro m hm hid
      obtain ⟨m0, hm0, hmeq⟩ := List.mem_map.mp hm
      by_cases hc : m0.id = e.1
      · rw [if_pos hc] at hmeq
        rw [← hmeq] at hid
        exact absurd (hc.symm.trans hid) he
      · rw [if_neg hc] at hmeq
        rw [← hmeq]
        exact h m0 hm0 (by rw [hmeq]; exact hid)
    | error msg =>
      dsimp only
      rw [updateNode_comp]
      intro m hm hid
      obtain ⟨m0, hm0, hmeq⟩ := List.mem_map.mp hm
      by_cases hc : m0.id = e.1
      · rw [if_pos hc] at hmeq
        rw [← hmeq] at hid
        exact absurd (hc.symm.trans hid) he
      · rw [if_neg hc] at hmeq
        rw [← hmeq]
        exact h m0 hm0 (by rw [hmeq]; exact hid)

theorem foldl_preserves_id_prop (conns : List Connection) (gen : GenClient)
    {x : String} (P : NodeData → Prop) (L : List (String × String))
    (hL : ∀ e ∈ L, e.1 ≠ x) :
    ∀ acc : LevelAcc, (∀ m ∈ acc.nodes, m.id = x → P m.data) →
      ∀ m ∈ (L.foldl (processEntry conns gen) acc).nodes, m.id = x → P m.data := by
  induction L with
  | nil => intro acc h; exact h
  | cons e L ih =>
    intro acc h
    exact ih (fun e2 he2 => hL e2 (List.mem_cons_of_mem e he2)) _
      (processEntry_preserves_id_prop conns gen P e (hL e (List.mem_cons_self e L)) acc h)

/-! ## Lemmas towards termination and final statuses (C4) -/

theorem processLevel_map_id (conns : List Connection) (gen : GenClient)
    (nodes : List AgentNode) (Q : List (String × String)) :
    (processLevel conns gen nodes Q).nodes.map (fun n => n.id) =
      nodes.map (fun n => n.id) := by
  simpa [processLevel] using
    foldl_processEntry_map_id conns gen Q { nodes := nodes, nextQueue := [], trace := [] }

theorem processQueue_map_id (conns : List Connection) (gen : GenClient) :
    ∀ (fuel : Nat) (nodes : List AgentNode) (queue : List (String × String))
      (final : List AgentNode) (ts : List (List (String × String))),
      processQueue conns gen fuel nodes queue = some (final, ts) →
      final.map (fun n => n.id) = nodes.map (fun n => n.id) := by
  intro fuel
  induction fuel with
  | zero =>
    intro nodes queue final ts h
    cases queue with
    | nil =>
      simp only [processQueue, Option.some.injEq, Prod.mk.injEq] at h
      rw [← h.1]
    | cons e rest => simp [processQueue] at h
  | succ f ih =>
    intro nodes queue final ts h
    cases queue with
    | nil =>
      simp only [processQueue, Option.some.injEq, Prod.mk.injEq] at h
      rw [← h.1]
    | cons e rest =>
      simp only [processQueue] at h
      by_cases hq : (processLevel conns gen nodes (e :: rest)).nextQueue.isEmpty
      · rw [if_pos hq] at h
        injection h with h'
        have h1 := congrArg Prod.fst h'
        simp only at h1
        rw [← h1, processLevel_map_id]
      · rw [if_neg hq] at h
        cases hrec : processQueue conns gen f (processLevel conns gen nodes (e :: rest)).nodes
            (processLevel conns gen nodes (e :: rest)).nextQueue with
        | none => rw [hrec] at h; exact absurd h (by simp)
        | some out =>
          obtain ⟨fn, ts2⟩ := out
          rw [hrec] at h
          injection h with h'
          have h1 := congrArg Prod.fst h'
          simp only at h1
          rw [← h1, ih _ _ _ _ hrec, processLevel_map_id]

theorem mem_nextQueue_processEntry (conns : List Connection) (gen : GenClient)
    (acc : LevelAcc) (e q : String × String)
    (hq : q ∈ (processEntry conns gen acc e).nextQueue) :
    q ∈ acc.nextQueue ∨ ∃ cn ∈ conns, cn.source = e.1 ∧ q.1 = cn.target := by
  cases hf : acc.nodes.find? (fun n => n.id == e.1) with
  | none =>
    unfold processEntry at hq
    rw [hf] at hq
    exact Or.inl hq
  | some n =>
    unfold processEntry at hq
    rw [hf] at hq
    dsimp only at hq
    cases hg : gen e.2 n.data.systemInstruction with
    | ok o =>
      rw [hg] at hq
      dsimp only at hq
      rcases List.mem_append.mp hq with h | h
      · exact Or.inl h
      · obtain ⟨cn, hcn, hpair⟩ := List.mem_map.mp h
        have hcn' := List.mem_filter.mp hcn
        refine Or.inr ⟨cn, hcn'.1, by simpa using hcn'.2, ?_⟩
        rw [← hpair]
    | error msg =>
      rw [hg] at hq
      exact Or.inl hq

theorem mem_nextQueue_foldl (conns : List Connection) (gen : GenClient)
    (L : List (String × String)) :
    ∀ (acc : LevelAcc) (q : String × String),
      q ∈ (L.foldl (processEntry conns gen) acc).nextQueue →
      q ∈ acc.nextQueue ∨ ∃ e ∈ L, ∃ cn ∈ conns, cn.source = e.1 ∧ q.1 = cn.target := by
  induction L with
  | nil => intro acc q h; exact Or.inl h
  | cons e L ih =>
    intro acc q h
    rcases ih _ q h with h1 | ⟨e2, he2, rest⟩
    · rcases mem_nextQueue_processEntry conns gen acc e q h1 with h2 | h2
      · exact Or.inl h2
      · exact Or.inr ⟨e, List.mem_cons_self e L, h2⟩
    · exact Or.inr ⟨e2, List.mem_cons_of_mem _ he2, rest⟩

theorem mem_nextQueue_processLevel (conns : List Connection) (gen : GenClient)
    (nodes : List AgentNode) (Q : List (String × String)) (q : String × String)
    (hq : q ∈ (processLevel conns gen nodes Q).nextQueue) :
    ∃ e ∈ Q, ∃ cn ∈ conns, cn.source = e.1 ∧ q.1 = cn.target := by
  rcases mem_nextQueue_foldl conns gen Q { nodes := nodes, nextQueue := [], trace := [] } q hq
    with h | h
  · exact absurd h (List.not_mem_nil q)
  · exact h

theorem agreeOutside_refl (P : String → Prop) :
    ∀ ns : List AgentNode, AgreeOutside P ns ns
  | [] => .nil
  | _ :: ns => .cons rfl (fun _ => rfl) (agreeOutside_refl P ns)

theorem agreeOutside_trans {P : String → Prop} {ns ms ks : List AgentNode}
    (h1 : AgreeOutside P ns ms) : AgreeOutside P ms ks → AgreeOutside P ns ks := by
  induction h1 generalizing ks with
  | nil => intro h2; exact h2
  | @cons n m ns ms hid hout h ih =>
    intro h2
    cases h2 with
    | @cons _ k _ ks hid2 hout2 h2 =>
      refine .cons (hid.trans hid2) ?_ (ih h2)
      intro hp
      have hnm : n = m := hout hp
      have : ¬ P m.id := by rw [← hid]; exact hp
      rw [hnm]
      exact hout2 this

theorem agreeOutside_updateNode (P : String → Prop) (x : String) (hx : P x)
    (f : NodeData → NodeData) :
    ∀ ns : List AgentNode, AgreeOutside P ns (updateNode x f ns) := by
  intro ns
  induction ns with
  | nil => exact .nil
  | cons n ns ih =>
    rw [updateNode_cons]
    by_cases hnx : n.id = x
    · rw [if_pos hnx]
      exact .cons rfl (fun hp => absurd (hnx ▸ hx) hp) ih
    · rw [if_neg hnx]
      exact .cons rfl (fun _ => rfl) ih

theorem agreeOutside_processEntry (conns : List Connection) (gen : GenClient)
    {P : String → Prop} (acc : LevelAcc) (e : String × String) (he : P e.1) :
    AgreeOutside P acc.nodes (processEntry conns gen acc e).nodes := by
  cases hf : acc.nodes.find? (fun n => n.id == e.1) with
  | none =>
    unfold processEntry
    rw [hf]
    exact agreeOutside_refl P acc.nodes
  | some n =>
    unfold processEntry
    rw [hf]
    dsimp only
    cases hg : gen e.2 n.data.systemInstruction with
    | ok o =>
      dsimp only
      exact agreeOutside_trans (agreeOutside_updateNode P e.1 he _ acc.nodes)
        (agreeOutside_updateNode P e.1 he _ _)
    | error msg =>
      dsimp only
      exact agreeOutside_trans (agreeOutside_updateNode P e.1 he _ acc.nodes)
        (agreeOutside_updateNode P e.1 he _ _)

theorem agreeOutside_foldl (conns : List Connection) (gen : GenClient)
    {P : String → Prop} (L : List (String × String)) (hL : ∀ e ∈ L, P e.1) :
    ∀ acc : LevelAcc,
      AgreeOutside P acc.nodes (L.foldl (processEntry conns gen) acc).nodes := by
  induction L with
  | nil => intro acc; exact agreeOutside_refl P acc.nodes
  | cons e L ih =>
    intro acc
    exact agreeOutside_trans
      (agreeOutside_processEntry conns gen acc e (hL e (List.mem_cons_self e L)))
      (ih (fun e2 he2 => hL e2 (List.mem_cons_of_mem e he2)) _)

theorem agreeOutside_mem_right {P : String → Prop} {ns ms : List AgentNode}
    (h : AgreeOutside P ns ms) : ∀ m ∈ ms, ¬ P m.id → m ∈ ns := by
  induction h with
  | nil => intro m hm; exact absurd hm (List.not_mem_nil m)
  | @cons n m2 ns ms hid hout h ih =>
    intro m hm hp
    rcases List.mem_cons.mp hm with rfl | hm2
    · have : ¬ P n.id := by rw [hid]; exact hp
      rw [← hout this]
      exact List.mem_cons_self n ns
    · exact List.mem_cons_of_mem n (ih m hm2 hp)

theorem agreeOutside_processQueue (conns : List Connection) (gen : GenClient)
    {P : String → Prop}
    (hcl : ∀ u v, P u → Edge conns u v → P v) :
    ∀ (fuel : Nat) (nodes : List AgentNode) (queue : List (String × String))
      (final : List AgentNode) (ts : List (List (String × String))),
      processQueue conns gen fuel nodes queue = some (final, ts) →
      (∀ e ∈ queue, P e.1) →
      AgreeOutside P nodes final := by
  intro fuel
  induction fuel with
  | zero =>
    intro nodes queue final ts h hP
    cases queue with
    | nil =>
      simp only [processQueue, Option.some.injEq, Prod.mk.injEq] at h
      rw [← h.1]
      exact agreeOutside_refl P nodes
    | cons e rest => simp [processQueue] at h
  | succ f ih =>
    intro nodes queue final ts h hP
    cases queue with
    | nil =>
      simp only [processQueue, Option.some.injEq, Prod.mk.injEq] at h
      rw [← h.1]
      exact agreeOutside_refl P nodes
    | cons e rest =>
      simp only [processQueue] at h
      have hlevel : AgreeOutside P nodes (processLevel conns gen nodes (e :: rest)).nodes := by
        simpa [processLevel] using agreeOutside_foldl conns gen (e :: rest) hP
          { nodes := nodes, nextQueue := [], trace := [] }
      have hnextP : ∀ e2 ∈ (processLevel conns gen nodes (e :: rest)).nextQueue, P e2.1 := by
        intro e2 he2
        obtain ⟨e1, he1, cn, hcn, hsrc, htg⟩ :=
          mem_nextQueue_processLevel conns gen nodes (e :: rest) e2 he2
        rw [htg]
        exact hcl e1.1 cn.target (hP e1 he1) ⟨cn, hcn, hsrc, rfl⟩
      by_cases hq : (processLevel conns gen nodes (e :: rest)).nextQueue.isEmpty
      · rw [if_pos hq] at h
        injection h with h'
        have h1 := congrArg Prod.fst h'
        simp only at h1
        rw [← h1]
        exact hlevel
      · rw [if_neg hq] at h
        cases hrec : processQueue conns gen f (processLevel conns gen nodes (e :: rest)).nodes
            (processLevel conns gen nodes (e :: rest)).nextQueue with
        | none => rw [hrec] at h; exact absurd h (by simp)
        | some out =>
          obtain ⟨fn, ts2⟩ := out
          rw [hrec] at h
          injection h with h'
          have h1 := congrArg Prod.fst h'
          simp only at h1
          rw [← h1]
          exact agreeOutside_trans hlevel (ih _ _ _ _ hrec hnextP)

theorem processQueue_terminates (conns : List Connection) (gen : GenClient)
    (rank : String → Nat) (B : Nat)
    (hrank : ∀ cn ∈ conns, rank cn.source < rank cn.target)
    (hB : ∀ cn ∈ conns, rank cn.target < B) :
    ∀ (fuel k : Nat) (nodes : List AgentNode) (queue : List (String × String)),
      (∀ e ∈ queue, k ≤ rank e.1 ∧ rank e.1 < B) → B ≤ k + fuel →
      (processQueue conns gen fuel nodes queue).isSome := by
  intro fuel
  induction fuel with
  | zero =>
    intro k nodes queue hq hBk
    cases queue with
    | nil => simp [processQueue]
    | cons e rest =>
      obtain ⟨h1, h2⟩ := hq e (List.mem_cons_self e rest)
      omega
  | succ f ih =>
    intro k nodes queue hq hBk
    cases queue with
    | nil => simp [processQueue]
    | cons e rest =>
      simp only [processQueue]
      by_cases hqe : (processLevel conns gen nodes (e :: rest)).nextQueue.isEmpty
      · rw [if_pos hqe]
        simp
      · rw [if_neg hqe]
        have hnext : ∀ e2 ∈ (processLevel conns gen nodes (e :: rest)).nextQueue,
            k + 1 ≤ rank e2.1 ∧ rank e2.1 < B := by
          intro e2 he2
          obtain ⟨e0, he0, cn, hcn, hsrc, htgt⟩ :=
            mem_nextQueue_processLevel conns gen nodes (e :: rest) e2 he2
          have hk := (hq e0 he0).1
          have hlt := hrank cn hcn
          rw [hsrc] at hlt
          constructor
          · rw [htgt]; omega
          · rw [htgt]; exact hB cn hcn
        have hrec := ih (k + 1) (processLevel conns gen nodes (e :: rest)).nodes
          (processLevel conns gen nodes (e :: rest)).nextQueue hnext (by omega)
        cases hres : processQueue conns gen f (processLevel conns gen nodes (e :: rest)).nodes
            (processLevel conns gen nodes (e :: rest)).nextQueue with
        | none => rw [hres] at hrec; simp at hrec
        | some out =>
          obtain ⟨fn, ts⟩ := out
          simp

theorem processEntry_completes (conns : List Connection) (gen : GenClient)
    (acc : LevelAcc) (e : String × String)
    (hmem : e.1 ∈ acc.nodes.map (fun n => n.id))
    (hok : ∀ i s, ∃ o, gen i s = Except.ok o) :
    ∀ m ∈ (processEntry conns gen acc e).nodes, m.id = e.1 →
      m.data.status = NodeStatus.completed := by
  obtain ⟨n, hf⟩ := find?_of_mem_ids acc.nodes e.1 hmem
  obtain ⟨o, hg⟩ := hok e.2 n.data.systemInstruction
  have hentry := processEntry_ok conns gen acc e.1 e.2 o n hf hg
  intro m hm hid
  have hme : processEntry conns gen acc e = processEntry conns gen acc (e.1, e.2) := rfl
  rw [hme, hentry.1] at hm
  exact mem_updateNode_id e.1 _ acc.nodes (fun d => d.status = NodeStatus.completed)
    (fun d => rfl) m hm hid

theorem entry_stable_completed (conns : List Connection) (gen : GenClient)
    (x : String) (hok : ∀ i s, ∃ o, gen i s = Except.ok o)
    (acc : LevelAcc) (e : String × String)
    (h : ∀ m ∈ acc.nodes, m.id = x → m.data.status = NodeStatus.completed) :
    ∀ m ∈ (processEntry conns gen acc e).nodes, m.id = x →
      m.data.status = NodeStatus.completed := by
  by_cases hex : e.1 = x
  · cases hf : acc.nodes.find? (fun n => n.id == e.1) with
    | none =>
      unfold processEntry
      rw [hf]
      exact h
    | some n =>
      obtain ⟨o, hg⟩ := hok e.2 n.data.systemInstruction
      have hentry := processEntry_ok conns gen acc e.1 e.2 o n hf hg
      intro m hm hid
      have hme : processEntry conns gen acc e = processEntry conns gen acc (e.1, e.2) := rfl
      rw [hme, hentry.1] at hm
      rw [← hex] at hid
      exact mem_updateNode_id e.1 _ acc.nodes (fun d => d.status = NodeStatus.completed)
        (fun d => rfl) m hm hid
  · exact processEntry_preserves_id_prop conns gen
      (fun d => d.status = NodeStatus.completed) e hex acc h

theorem foldl_stable_completed (conns : List Connection) (gen : GenClient)
    (x : String) (hok : ∀ i s, ∃ o, gen i s = Except.ok o)
    (L : List (String × String)) :
    ∀ acc : LevelAcc,
      (∀ m ∈ acc.nodes, m.id = x → m.data.status = NodeStatus.completed) →
      ∀ m ∈ (L.foldl (processEntry conns gen) acc).nodes, m.id = x →
        m.data.status = NodeStatus.completed := by
  induction L with
  | nil => intro acc h; exact h
  | cons e L ih =>
    intro acc h
    exact ih _ (entry_stable_completed conns gen x hok acc e h)

theorem level_completes (conns : List Connection) (gen : GenClient)
    (nodes : List AgentNode) (queue : List (String × String)) (e : String × String)
    (he : e ∈ queue) (hmem : e.1 ∈ nodes.map (fun n => n.id))
    (hok : ∀ i s, ∃ o, gen i s = Except.ok o) :
    ∀ m ∈ (processLevel conns gen nodes queue).nodes, m.id = e.1 →
      m.data.status = NodeStatus.completed := by
  obtain ⟨q1, q2, rfl⟩ := List.append_of_mem he
  unfold processLevel
  rw [List.foldl_append, List.foldl_cons]
  set P1 : LevelAcc :=
    q1.foldl (processEntry conns gen) { nodes := nodes, nextQueue := [], trace := [] }
    with hP1
  have hmem1 : e.1 ∈ P1.nodes.map (fun n => n.id) := by
    rw [hP1, foldl_processEntry_map_id]
    exact hmem
  exact foldl_stable_completed conns gen e.1 hok q2 _
    (processEntry_completes conns gen P1 e hmem1 hok)

theorem levels_stable_completed (conns : List Connection) (gen : GenClient)
    (x : String) (hok : ∀ i s, ∃ o, gen i s = Except.ok o) :
    ∀ (fuel : Nat) (nodes : List AgentNode) (queue : List (String × String))
      (final : List AgentNode) (ts : List (List (String × String))),
      processQueue conns gen fuel nodes queue = some (final, ts) →
      (∀ m ∈ nodes, m.id = x → m.data.status = NodeStatus.completed) →
      ∀ m ∈ final, m.id = x → m.data.status = NodeStatus.completed := by
  intro fuel
  induction fuel with
  | zero =>
    intro nodes queue final ts h hc
    cases queue with
    | nil =>
      simp only [processQueue, Option.some.injEq, Prod.mk.injEq] at h
      rw [← h.1]
      exact hc
    | cons e rest => simp [processQueue] at h
  | succ f ih =>
    intro nodes queue final ts h hc
    cases queue with
    | nil =>
      simp only [processQueue, Option.some.injEq, Prod.mk.injEq] at h
      rw [← h.1]
      exact hc
    | cons e rest =>
      simp only [processQueue] at h
      have hlevel : ∀ m ∈ (processLevel conns gen nodes (e :: rest)).nodes, m.id = x →
          m.data.status = NodeStatus.completed := by
        unfold processLevel
        exact foldl_stable_completed conns gen x hok (e :: rest) _ hc
      by_cases hq : (processLevel conns gen nodes (e :: rest)).nextQueue.isEmpty
      · rw [if_pos hq] at h
        injection h with h'
        have h1 := congrArg Prod.fst h'
        simp only at h1
        rw [← h1]
        exact hlevel
      · rw [if_neg hq] at h
        cases hrec : processQueue conns gen f (processLevel conns gen nodes (e :: rest)).nodes
            (processLevel conns gen nodes (e :: rest)).nextQueue with
        | none => rw [hrec] at h; exact absurd h (by simp)
        | some out =>
          obtain ⟨fn, ts2⟩ := out
          rw [hrec] at h
          injection h with h'
          have h1 := congrArg Prod.fst h'
          simp only at h1
          rw [← h1]
          exact ih _ _ _ _ hrec hlevel

theorem nextQueue_mono_entry (conns : List Connection) (gen : GenClient)
    (acc : LevelAcc) (e q : String × String) (hq : q ∈ acc.nextQueue) :
    q ∈ (processEntry conns gen acc e).nextQueue := by
  cases hf : acc.nodes.find? (fun n => n.id == e.1) with
  | none =>
    unfold processEntry
    rw [hf]
    exact hq
  | some n =>
    unfold processEntry
    rw [hf]
    dsimp only
    cases hg : gen e.2 n.data.systemInstruction with
    | ok o =>
      dsimp only
      exact List.mem_append_left _ hq
    | error msg =>
      dsimp only
      exact hq

theorem nextQueue_mono_foldl (conns : List Connection) (gen : GenClient)
    (L : List (String × String)) :
    ∀ (acc : LevelAcc) (q : String × String), q ∈ acc.nextQueue →
      q ∈ (L.foldl (processEntry conns gen) acc).nextQueue := by
  induction L with
  | nil => intro acc q hq; exact hq
  | cons e L ih =>
    intro acc q hq
    exact ih _ q (nextQueue_mono_entry conns gen acc e q hq)

theorem level_enqueues (conns : List Connection) (gen : GenClient)
    (nodes : List AgentNode) (queue : List (String × String)) (e : String × String)
    (cn : Connection) (he : e ∈ queue) (hmem : e.1 ∈ nodes.map (fun n => n.id))
    (hok : ∀ i s, ∃ o, gen i s = Except.ok o)
    (hcn : cn ∈ conns) (hsrc : cn.source = e.1) :
    ∃ out, (cn.target, out) ∈ (processLevel conns gen nodes queue).nextQueue := by
  obtain ⟨q1, q2, rfl⟩ := List.append_of_mem he
  unfold processLevel
  rw [List.foldl_append, List.foldl_cons]
  set P1 : LevelAcc :=
    q1.foldl (processEntry conns gen) { nodes := nodes, nextQueue := [], trace := [] }
    with hP1
  have hmem1 : e.1 ∈ P1.nodes.map (fun n => n.id) := by
    rw [hP1, foldl_processEntry_map_id]
    exact hmem
  obtain ⟨n, hf⟩ := find?_of_mem_ids P1.nodes e.1 hmem1
  obtain ⟨o, hg⟩ := hok e.2 n.data.systemInstruction
  have hentry := processEntry_ok conns gen P1 e.1 e.2 o n hf hg
  refine ⟨o, nextQueue_mono_foldl conns gen q2 _ _ ?_⟩
  have hme : processEntry conns gen P1 e = processEntry conns gen P1 (e.1, e.2) := rfl
  rw [hme, hentry.2.1]
  apply List.mem_append_right
  apply List.mem_map.mpr
  refine ⟨cn, List.mem_filter.mpr ⟨hcn, by simp [hsrc]⟩, rfl⟩

theorem processQueue_completes (conns : List Connection) (gen : GenClient)
    (hok : ∀ i s, ∃ o, gen i s = Except.ok o) :
    ∀ (fuel : Nat) (nodes : List AgentNode) (queue : List (String × String))
      (final : List AgentNode) (ts : List (List (String × String))),
      processQueue conns gen fuel nodes queue = some (final, ts) →
      (∀ cn ∈ conns, cn.target ∈ nodes.map (fun n => n.id)) →
      (∀ e ∈ queue, e.1 ∈ nodes.map (fun n => n.id)) →
      ∀ y, (∃ e ∈ queue, Reaches conns e.1 y) →
        ∀ m ∈ final, m.id = y → m.data.status = NodeStatus.completed := by
  intro fuel
  induction fuel with
  | zero =>
    intro nodes queue final ts h htgt hqids y hy
    cases queue with
    | nil =>
      obtain ⟨e, he, _⟩ := hy
      exact absurd he (List.not_mem_nil e)
    | cons e rest => simp [processQueue] at h
  | succ f ih =>
    intro nodes queue final ts h htgt hqids y hy
    cases queue with
    | nil =>
      obtain ⟨e, he, _⟩ := hy
      exact absurd he (List.not_mem_nil e)
    | cons e rest =>
      obtain ⟨e0, he0, hpath⟩ := hy
      simp only [processQueue] at h
      by_cases hqe : (processLevel conns gen nodes (e :: rest)).nextQueue.isEmpty
      · rw [if_pos hqe] at h
        injection h with h'
        have h1 := congrArg Prod.fst h'
        simp only at h1
        rcases Relation.ReflTransGen.cases_head hpath with rfl | ⟨v, hedge, hrest⟩
        · intro m hm hid
          exact level_completes conns gen nodes (e :: rest) e0 he0 (hqids e0 he0) hok m
            (by rw [h1]; exact hm) hid
        · obtain ⟨cn, hcn, hsrc, htgv⟩ := hedge
          obtain ⟨o, ho⟩ := level_enqueues conns gen nodes (e :: rest) e0 cn he0
            (hqids e0 he0) hok hcn hsrc
          rw [List.isEmpty_iff] at hqe
          rw [hqe] at ho
          exact absurd ho (List.not_mem_nil _)
      · rw [if_neg hqe] at h
        cases hrec : processQueue conns gen f (processLevel conns gen nodes (e :: rest)).nodes
            (processLevel conns gen nodes (e :: rest)).nextQueue with
        | none => rw [hrec] at h; exact absurd h (by simp)
        | some out =>
          obtain ⟨fn, ts2⟩ := out
          rw [hrec] at h
          injection h with h'
          have h1 := congrArg Prod.fst h'
          simp only at h1
          have htgt2 : ∀ cn ∈ conns, cn.target ∈
              (processLevel conns gen nodes (e :: rest)).nodes.map (fun n => n.id) := by
            intro cn hcn
            rw [processLevel_map_id]
            exact htgt cn hcn
          have hqids2 : ∀ e2 ∈ (processLevel conns gen nodes (e :: rest)).nextQueue,
              e2.1 ∈ (processLevel conns gen nodes (e :: rest)).nodes.map (fun n => n.id) := by
            intro e2 he2
            obtain ⟨e1, he1, cn, hcn, hsrc, htg⟩ :=
              mem_nextQueue_processLevel conns gen nodes (e :: rest) e2 he2
            rw [processLevel_map_id, htg]
            exact htgt cn hcn
          rcases Relation.ReflTransGen.cases_head hpath with rfl | ⟨v, hedge, hrest⟩
          · have hcl := level_completes conns gen nodes (e :: rest) e0 he0 (hqids e0 he0) hok
            intro m hm hid
            exact levels_stable_completed conns gen e0.1 hok f _ _ fn ts2 hrec hcl m
              (by rw [h1]; exact hm) hid
          · obtain ⟨cn, hcn, hsrc, htgv⟩ := hedge
            obtain ⟨o, ho⟩ := level_enqueues conns gen nodes (e :: rest) e0 cn he0
              (hqids e0 he0) hok hcn hsrc
            have hr : Reaches conns cn.target y := by rw [htgv]; exact hrest
            have hreach2 : ∃ e2 ∈ (processLevel conns gen nodes (e :: rest)).nextQueue,
                Reaches conns e2.1 y := ⟨(cn.target, o), ho, hr⟩
            intro m hm hid
            exact ih _ _ fn ts2 hrec htgt2 hqids2 y hreach2 m (by rw [h1]; exact hm) hid

theorem le_foldr_max (a : Nat) : ∀ l : List Nat, a ∈ l → a ≤ l.foldr max 0 := by
  intro l
  induction l with
  | nil => intro h; exact absurd h (List.not_mem_nil a)
  | cons b l ih =>
    intro h
    rcases List.mem_cons.mp h with rfl | h2
    · exact le_max_left _ _
    · exact le_trans (ih h2) (le_max_right _ _)

/-! ## Claim theorems -/

/-- C6 counterexample: `handleReset` (App.tsx line 278) writes
`status: 'idle', output: '', input: ''` but does not touch `errorMessage`,
so after a reset a previously failed node still carries its error message —
the claim that `reset()` clears `errorMessage` is false on this state. -/
theorem C6_reset_keeps_errorMessage :
    ¬ (∀ n ∈ (handleReset errState).nodes, n.data.errorMessage = none) := by
  decide

/-- C6 (amended): `reset()` sets every node's status to idle, clears its
`lastInput` and `lastOutput`, and clears the running flag, and calling it
is idempotent; the `errorMessage` field is retained, not cleared. -/
theorem C6_reset_behavior (st : FlowState) :
    (handleReset st).isRunning = false
    ∧ (∀ n ∈ (handleReset st).nodes,
        n.data.status = NodeStatus.idle ∧ n.data.input = "" ∧ n.data.output = "")
    ∧ handleReset (handleReset st) = handleReset st := by
  refine ⟨rfl, ?_, ?_⟩
  · intro n hn
    simp only [handleReset, List.mem_map] at hn
    obtain ⟨m, _, rfl⟩ := hn
    exact ⟨rfl, rfl, rfl⟩
  · simp only [handleReset, List.map_map]
    congr 1

/-- C6 witness: the reset behavior evaluated on the concrete error state. -/
theorem C6_reset_behavior_witness :
    (handleReset errState).isRunning = false
    ∧ (∀ n ∈ (handleReset errState).nodes,
        n.data.status = NodeStatus.idle ∧ n.data.input = "" ∧ n.data.output = "")
    ∧ handleReset (handleReset errState) = handleReset errState :=
  C6_reset_behavior errState

/-- C7: `handleEndConnection` (App.tsx lines 144-164) silently rejects a
self-loop (`addConnection(a,a)` leaves the connection set unchanged) and a
duplicate `(source, target)` pair (a second `addConnection(a,b)` is a
no-op), so two calls with the same fresh pair yield exactly one such
connection; no exception is involved. -/
theorem C7_addConnection_rejections (conns : List Connection) (fid1 fid2 a b : String) :
    handleEndConnection { isConnecting := true, sourceNodeId := some a } fid1 a conns = conns
    ∧ ((∃ c ∈ conns, c.source = a ∧ c.target = b) →
        handleEndConnection { isConnecting := true, sourceNodeId := some a } fid1 b conns
          = conns)
    ∧ (a ≠ b → (∀ c ∈ conns, ¬ (c.source = a ∧ c.target = b)) →
        ((handleEndConnection { isConnecting := true, sourceNodeId := some a } fid2 b
            (handleEndConnection { isConnecting := true, sourceNodeId := some a } fid1 b
              conns)).countP
          (fun c => c.source == a && c.target == b)) = 1) := by
  refine ⟨?_, ?_, ?_⟩
  · simp [handleEndConnection]
  · rintro ⟨c, hc, hs, ht⟩
    have hany : conns.any (fun c => c.source == a && c.target == b) = true :=
      List.any_eq_true.mpr ⟨c, hc, by simp [hs, ht]⟩
    simp [handleEndConnection, hany]
  · intro hne hnone
    have hany : conns.any (fun c => c.source == a && c.target == b) = false := by
      rw [List.any_eq_false]
      intro c hc
      simp only [Bool.and_eq_true, beq_iff_eq]
      exact hnone c hc
    have h1 : handleEndConnection { isConnecting := true, sourceNodeId := some a } fid1 b conns
        = conns ++ [{ id := fid1, source := a, target := b }] := by
      simp [handleEndConnection, hne, hany]
    have hany2 : (conns ++ [({ id := fid1, source := a, target := b } : Connection)]).any
        (fun c => c.source == a && c.target == b) = true := by
      rw [List.any_eq_true]
      exact ⟨{ id := fid1, source := a, target := b }, by simp, by simp⟩
    have h2 : handleEndConnection { isConnecting := true, sourceNodeId := some a } fid2 b
        (conns ++ [{ id := fid1, source := a, target := b }])
        = conns ++ [{ id := fid1, source := a, target := b }] := by
      simp [handleEndConnection, hany2]
    rw [h1, h2, List.countP_append]
    have hz : conns.countP (fun c => c.source == a && c.target == b) = 0 := by
      rw [List.countP_eq_zero]
      intro c hc
      simp only [Bool.and_eq_true, beq_iff_eq]
      exact hnone c hc
    simp [hz, List.countP_cons]

/-- C7 witness: concrete rejection of a self-loop and of a duplicate. -/
theorem C7_addConnection_rejections_witness :
    handleEndConnection { isConnecting := true, sourceNodeId := some "a" } "f1" "a"
        [{ id := "c0", source := "a", target := "b" }]
      = [{ id := "c0", source := "a", target := "b" }]
    ∧ ((∃ c ∈ [({ id := "c0", source := "a", target := "b" } : Connection)],
          c.source = "a" ∧ c.target = "b") →
        handleEndConnection { isConnecting := true, sourceNodeId := some "a" } "f1" "b"
            [{ id := "c0", source := "a", target := "b" }]
          = [{ id := "c0", source := "a", target := "b" }])
    ∧ ("a" ≠ "b" →
        (∀ c ∈ [({ id := "c0", source := "a", target := "b" } : Connection)],
          ¬ (c.source = "a" ∧ c.target = "b")) →
        ((handleEndConnection { isConnecting := true, sourceNodeId := some "a" } "f2" "b"
            (handleEndConnection { isConnecting := true, sourceNodeId := some "a" } "f1" "b"
              [{ id := "c0", source := "a", target := "b" }])).countP
          (fun c => c.source == "a" && c.target == "b")) = 1) :=
  C7_addConnection_rejections [{ id := "c0", source := "a", target := "b" }] "f1" "f2" "a" "b"

/-- C8: a `runFlow` call while `isRunning` is already set (App.tsx line
177) is a no-op: the node list is returned unchanged, no level is started
and no Generation Client invocation is recorded. -/
theorem C8_reentrant_run_noop (gen : GenClient) (fuel : Nat) (st : FlowState)
    (h : st.isRunning = true) :
    runFlow gen fuel st =
      some { nodes := st.nodes, isRunning := true, noStartNodeAlert := false, trace := [] } := by
  simp [runFlow, h]

/-- C8 witness: a concrete re-entrant call. -/
theorem C8_reentrant_run_noop_witness :
    runFlow genEcho 3
        { nodes := [testNode "a" ""], connections := [], globalInput := "g",
          isRunning := true } =
      some { nodes := [testNode "a" ""], isRunning := true, noStartNodeAlert := false,
             trace := [] } :=
  C8_reentrant_run_noop genEcho 3 _ rfl

/-- C9 counterexample: `addNode` derives the id from `Date.now()` with no
collision check, so two additions observing the same clock value (here
`5`) produce two nodes with the same id `node-5` — the claimed invariant
fails. -/
theorem C9_addNode_id_collision :
    ¬ (((addNode 5 (addNode 5 [])).map (fun n => n.id)).Nodup) := by
  decide

/-- C9 (amended): node ids stay pairwise distinct under the graph store
operations provided each `addNode` call observes a clock value whose
derived id `node-<now>` differs from every existing id; `deleteNode` and
per-node updates always preserve distinctness.  An `addNode` call whose
clock value collides with an existing id produces a duplicate. -/
theorem C9_ids_distinct_given_fresh (now : Nat) (nodes : List AgentNode)
    (conns : List Connection) (x id0 : String) (f : NodeData → NodeData)
    (h1 : ("node-" ++ toString now) ∉ nodes.map (fun n => n.id))
    (h2 : (nodes.map (fun n => n.id)).Nodup) :
    ((addNode now nodes).map (fun n => n.id)).Nodup
    ∧ (((deleteNode id0 nodes conns).1.map (fun n => n.id)).Nodup)
    ∧ (((updateNode x f nodes).map (fun n => n.id)).Nodup) := by
  refine ⟨?_, ?_, ?_⟩
  · simp only [addNode, List.map_append, List.map_cons, List.map_nil]
    rw [List.nodup_append]
    refine ⟨h2, List.nodup_singleton _, ?_⟩
    intro s hs hs'
    simp only [List.mem_singleton] at hs'
    exact h1 (hs' ▸ hs)
  · exact List.Nodup.sublist (List.Sublist.map _ (List.filter_sublist _)) h2
  · rw [updateNode_map_id]
    exact h2

/-- C9 witness: a fresh clock value keeps the ids distinct. -/
theorem C9_ids_distinct_given_fresh_witness :
    ("node-" ++ toString 7) ∉ ((addNode 5 []).map (fun n => n.id))
    ∧ (((addNode 7 (addNode 5 [])).map (fun n => n.id)).Nodup
      ∧ (((deleteNode "node-5" (addNode 5 []) []).1.map (fun n => n.id)).Nodup)
      ∧ (((updateNode "node-5" (markRunning "i") (addNode 5 [])).map (fun n => n.id)).Nodup)) :=
  ⟨by decide,
   C9_ids_distinct_given_fresh 7 (addNode 5 []) [] "node-5" "node-5" (markRunning "i")
     (by decide) (by decide)⟩

/-- C10: running on an empty graph (App.tsx lines 188-196, 215-219) does
not raise the `NoStartNode` alert — the guard requires a non-empty node
list — and the initial frontier is empty, so the run ends at once with no
Generation Client invocations and `isRunning` false. -/
theorem C10_empty_graph_run (gen : GenClient) (fuel : Nat) (st : FlowState)
    (h1 : st.nodes = []) (h2 : st.isRunning = false) :
    runFlow gen fuel st =
      some { nodes := [], isRunning := false, noStartNodeAlert := false, trace := [] } := by
  simp [runFlow, h1, h2, resetForRun, getRootNodes, processQueue]

/-- C10 witness: a concrete empty graph with a dangling connection list. -/
theorem C10_empty_graph_run_witness :
    runFlow genEcho 0
        { nodes := [], connections := [{ id := "c", source := "a", target := "b" }],
          globalInput := "g", isRunning := false } =
      some { nodes := [], isRunning := false, noStartNodeAlert := false, trace := [] } :=
  C10_empty_graph_run genEcho 0 _ rfl rfl

/-- C1: on a non-empty graph in which every node has an incoming
connection there is no root, so `runFlow` (App.tsx lines 188-196) aborts
with the `NoStartNode` alert before any Generation Client invocation,
every node's status is left `idle` (the run-start reset already ran) and
`isRunning` ends false. -/
theorem C1_noStartNode_aborts (gen : GenClient) (fuel : Nat) (st : FlowState)
    (hrun : st.isRunning = false) (hne : st.nodes ≠ [])
    (hin : ∀ n ∈ st.nodes, ∃ c ∈ st.connections, c.target = n.id) :
    runFlow gen fuel st =
      some { nodes := resetForRun st.nodes, isRunning := false, noStartNodeAlert := true,
             trace := [] }
    ∧ ∀ n ∈ resetForRun st.nodes, n.data.status = NodeStatus.idle := by
  have hroots : getRootNodes st.nodes st.connections = [] := by
    simp only [getRootNodes]
    rw [List.filter_eq_nil_iff]
    intro n hn
    obtain ⟨c, hc, ht⟩ := hin n hn
    simp only [Bool.not_eq_true', Bool.not_eq_false]
    exact List.elem_eq_true_of_mem (List.mem_map.mpr ⟨c, hc, ht⟩)
  constructor
  · have hcond : (getRootNodes st.nodes st.connections).length = 0 ∧ 0 < st.nodes.length :=
      ⟨by rw [hroots]; rfl, List.length_pos.mpr hne⟩
    simp only [runFlow, hrun, Bool.false_eq_true, if_false]
    rw [if_pos hcond]
  · intro n hn
    simp only [resetForRun, List.mem_map] at hn
    obtain ⟨m, _, rfl⟩ := hn
    rfl

/-- C2: the invocations of level 0 of a run (the first entry of the
trace) are exactly the root nodes in order, each invoked with the
configured global input (App.tsx lines 199-202: the initial queue is
`rootNodes.map(n => ({ nodeId: n.id, input: globalInput }))`). -/
theorem C2_level0_invokes_roots (gen : GenClient) (fuel : Nat) (st : FlowState)
    (r : RunReport) (hrun : st.isRunning = false) (hsome : runFlow gen fuel st = some r) :
    r.trace.headD [] =
      (getRootNodes st.nodes st.connections).map (fun n => (n.id, st.globalInput)) := by
  unfold runFlow at hsome
  rw [hrun] at hsome
  simp only [Bool.false_eq_true, if_false] at hsome
  by_cases hcond : (getRootNodes st.nodes st.connections).length = 0 ∧ 0 < st.nodes.length
  · rw [if_pos hcond] at hsome
    injection hsome with h'
    rw [← h']
    have hr0 : getRootNodes st.nodes st.connections = [] := List.length_eq_zero.mp hcond.1
    rw [hr0]
    rfl
  · rw [if_neg hcond] at hsome
    cases hq : (getRootNodes st.nodes st.connections).map (fun n => (n.id, st.globalInput)) with
    | nil =>
      rw [hq] at hsome
      simp only [processQueue] at hsome
      injection hsome with h'
      rw [← h']
      rfl
    | cons e rest =>
      rw [hq] at hsome
      cases hpq : processQueue st.connections gen fuel (resetForRun st.nodes) (e :: rest) with
      | none => rw [hpq] at hsome; exact absurd hsome (by simp)
      | some out =>
        rw [hpq] at hsome
        injection hsome with h'
        have htr : r.trace = out.2 := by rw [← h']
        have hhead := processQueue_trace_head st.connections gen fuel (resetForRun st.nodes)
          e rest out.1 out.2 (by rw [hpq])
        have hall : ∀ e2 ∈ (e :: rest), e2.1 ∈ (resetForRun st.nodes).map (fun n => n.id) := by
          intro e2 he2
          rw [resetForRun_map_id]
          have hmem : e2 ∈ (getRootNodes st.nodes st.connections).map
              (fun n => (n.id, st.globalInput)) := by rw [hq]; exact he2
          obtain ⟨n, hn, hpair⟩ := List.mem_map.mp hmem
          simp only [getRootNodes] at hn
          have hnn : n ∈ st.nodes := List.mem_of_mem_filter hn
          exact List.mem_map.mpr ⟨n, hnn, by rw [← hpair]⟩
        have hlvl : (processLevel st.connections gen (resetForRun st.nodes) (e :: rest)).trace
            = e :: rest := by
          have := foldl_trace_all_found st.connections gen (e :: rest)
            { nodes := resetForRun st.nodes, nextQueue := [], trace := [] } hall
          simpa [processLevel] using this
        rw [htr, hhead, hlvl]

/-- C2 witness: a concrete chain run. -/
theorem C2_level0_invokes_roots_witness :
    chainReport.trace.headD [] =
      (getRootNodes chainState.nodes chainState.connections).map
        (fun n => (n.id, chainState.globalInput)) :=
  C2_level0_invokes_roots genEcho 5 chainState chainReport rfl (by decide)

/-- C3: a Generation Client failure is local to its node (App.tsx lines
258-263).  For a level whose frontier contains one entry for node `x`
(whose invocation fails with `msg`) among other entries for other nodes:
the level's next frontier is exactly the next frontier of the same level
without the failing entry (so the failed node contributes no pairs and its
downstream nodes are never enqueued); node `x` ends with status `error`,
the failure message recorded and its input recorded; and every other node
ends exactly as it would have without the failing entry.  The level — and
hence the run — continues normally. -/
theorem C3_node_failure_is_local (conns : List Connection) (gen : GenClient)
    (nodes : List AgentNode) (pre post : List (String × String))
    (x input msg : String) (n : AgentNode)
    (hfind : nodes.find? (fun m => m.id == x) = some n)
    (hfail : gen input n.data.systemInstruction = Except.error msg)
    (hpre : ∀ e ∈ pre, e.1 ≠ x) (hpost : ∀ e ∈ post, e.1 ≠ x) :
    (processLevel conns gen nodes (pre ++ (x, input) :: post)).nextQueue
      = (processLevel conns gen nodes (pre ++ post)).nextQueue
    ∧ (∀ m ∈ (processLevel conns gen nodes (pre ++ (x, input) :: post)).nodes,
        m.id = x → m.data.status = NodeStatus.error ∧ m.data.errorMessage = some msg
          ∧ m.data.input = input)
    ∧ (processLevel conns gen nodes (pre ++ (x, input) :: post)).nodes.length
        = (processLevel conns gen nodes (pre ++ post)).nodes.length
    ∧ (∀ i (h1 : i < (processLevel conns gen nodes (pre ++ (x, input) :: post)).nodes.length)
          (h2 : i < (processLevel conns gen nodes (pre ++ post)).nodes.length),
        ((processLevel conns gen nodes (pre ++ (x, input) :: post)).nodes.get ⟨i, h1⟩).id ≠ x →
          (processLevel conns gen nodes (pre ++ (x, input) :: post)).nodes.get ⟨i, h1⟩
            = (processLevel conns gen nodes (pre ++ post)).nodes.get ⟨i, h2⟩) := by
  have hsplitA : pre ++ (x, input) :: post = (pre ++ [(x, input)]) ++ post := by
    simp
  unfold processLevel
  rw [hsplitA, List.foldl_append, List.foldl_append, List.foldl_append]
  set P0 : LevelAcc :=
    pre.foldl (processEntry conns gen) { nodes := nodes, nextQueue := [], trace := [] }
    with hP0
  have hfindP0 : P0.nodes.find? (fun m => m.id == x) = some n := by
    rw [hP0, foldl_find?_ne conns gen pre x hpre]
    exact hfind
  have hFtriple := processEntry_fail conns gen P0 x input msg n hfindP0 hfail
  have hFnodes := hFtriple.1
  have hFqueue := hFtriple.2.1
  simp only [List.foldl_cons, List.foldl_nil]
  have hstartAg : AgreeExcept x (processEntry conns gen P0 (x, input)).nodes P0.nodes := by
    rw [hFnodes]
    exact agreeExcept_updateNode_left _ (agreeExcept_refl x P0.nodes)
  obtain ⟨hAg, hQ⟩ := agreeExcept_foldl conns gen post hpost hstartAg hFqueue
  have hidprop : ∀ m ∈ (post.foldl (processEntry conns gen)
      (processEntry conns gen P0 (x, input))).nodes, m.id = x →
        m.data.status = NodeStatus.error ∧ m.data.errorMessage = some msg
          ∧ m.data.input = input := by
    apply foldl_preserves_id_prop conns gen
      (fun d => d.status = NodeStatus.error ∧ d.errorMessage = some msg ∧ d.input = input)
      post hpost
    rw [hFnodes]
    exact mem_updateNode_id x (fun d => markError msg (markRunning input d)) P0.nodes
      (fun d => d.status = NodeStatus.error ∧ d.errorMessage = some msg ∧ d.input = input)
      (fun d => ⟨rfl, rfl, rfl⟩)
  refine ⟨hQ, hidprop, agreeExcept_length hAg, ?_⟩
  intro i h1 h2 hne
  have := (agreeExcept_getElem hAg i h1 h2).2
  simpa using this (by simpa using hne)

/-- C3 witness: in a level `[a (fails), b]` over the graph `a → c`, the
failure of `a` is local: same next frontier as without the `a` entry, `a`
marked error with message and input, `b` untouched by the failure. -/
theorem C3_node_failure_is_local_witness :
    (processLevel [aToC] genSel trioNodes ([] ++ ("a", "ia") :: [("b", "ib")])).nextQueue
      = (processLevel [aToC] genSel trioNodes ([] ++ [("b", "ib")])).nextQueue
    ∧ (∀ m ∈ (processLevel [aToC] genSel trioNodes
          ([] ++ ("a", "ia") :: [("b", "ib")])).nodes,
        m.id = "a" → m.data.status = NodeStatus.error ∧ m.data.errorMessage = some "boom"
          ∧ m.data.input = "ia")
    ∧ (processLevel [aToC] genSel trioNodes ([] ++ ("a", "ia") :: [("b", "ib")])).nodes.length
        = (processLevel [aToC] genSel trioNodes ([] ++ [("b", "ib")])).nodes.length
    ∧ (∀ i (h1 : i < (processLevel [aToC] genSel trioNodes
            ([] ++ ("a", "ia") :: [("b", "ib")])).nodes.length)
          (h2 : i < (processLevel [aToC] genSel trioNodes ([] ++ [("b", "ib")])).nodes.length),
        ((processLevel [aToC] genSel trioNodes
            ([] ++ ("a", "ia") :: [("b", "ib")])).nodes.get ⟨i, h1⟩).id ≠ "a" →
          (processLevel [aToC] genSel trioNodes
              ([] ++ ("a", "ia") :: [("b", "ib")])).nodes.get ⟨i, h1⟩
            = (processLevel [aToC] genSel trioNodes ([] ++ [("b", "ib")])).nodes.get ⟨i, h2⟩) :=
  C3_node_failure_is_local [aToC] genSel trioNodes [] [("b", "ib")] "a" "ia" "boom"
    (testNode "a" "sa") (by decide) rfl (by decide) (by decide)

/-- C5: fan-in without join semantics (App.tsx lines 252-256; the level
fold serialises `Promise.all`, so "settles last" is "processed last").
When two distinct upstream nodes `a` and `b` both complete in the same
level and both connect to `c`, the next frontier contains `c` twice —
once with `a`'s output, once with `b`'s output — `c` is invoked twice in
the next level with those two inputs, and `c`'s final
status/lastInput/lastOutput are the writes of the last-settled invocation
(the `b`-derived one). -/
theorem C5_fan_in_double_invocation (conns : List Connection) (gen : GenClient)
    (nodes : List AgentNode) (a b c ia ib outA outB o1 o2 : String)
    (ca cb : Connection) (nA nB nC : AgentNode)
    (hba : b ≠ a) (hca : c ≠ a) (hcb : c ≠ b)
    (hfa : nodes.find? (fun m => m.id == a) = some nA)
    (hfb : nodes.find? (fun m => m.id == b) = some nB)
    (hfc : nodes.find? (fun m => m.id == c) = some nC)
    (hga : gen ia nA.data.systemInstruction = Except.ok outA)
    (hgb : gen ib nB.data.systemInstruction = Except.ok outB)
    (hfila : conns.filter (fun cn => cn.source == a) = [ca]) (hcat : ca.target = c)
    (hfilb : conns.filter (fun cn => cn.source == b) = [cb]) (hcbt : cb.target = c)
    (hgc1 : gen outA nC.data.systemInstruction = Except.ok o1)
    (hgc2 : gen outB nC.data.systemInstruction = Except.ok o2) :
    (processLevel conns gen nodes [(a, ia), (b, ib)]).nextQueue = [(c, outA), (c, outB)]
    ∧ (processLevel conns gen
        (processLevel conns gen nodes [(a, ia), (b, ib)]).nodes
        (processLevel conns gen nodes [(a, ia), (b, ib)]).nextQueue).trace
      = [(c, outA), (c, outB)]
    ∧ ∀ m ∈ (processLevel conns gen
        (processLevel conns gen nodes [(a, ia), (b, ib)]).nodes
        (processLevel conns gen nodes [(a, ia), (b, ib)]).nextQueue).nodes,
        m.id = c → m.data.status = NodeStatus.completed ∧ m.data.input = outB
          ∧ m.data.output = o2 := by
  set base : LevelAcc := { nodes := nodes, nextQueue := [], trace := [] } with hbase
  have hE1 := processEntry_ok conns gen base a ia outA nA hfa hga
  set E1 := processEntry conns gen base (a, ia) with hE1def
  have hE1q : E1.nextQueue = [(c, outA)] := by
    rw [hE1.2.1, hfila]
    simp [hcat]
  have hfb1 : E1.nodes.find? (fun m => m.id == b) = some nB := by
    rw [hE1def, processEntry_find?_ne conns gen base (a, ia) b (Ne.symm hba)]
    exact hfb
  have hE2 := processEntry_ok conns gen E1 b ib outB nB hfb1 hgb
  set E2 := processEntry conns gen E1 (b, ib) with hE2def
  have hL1 : processLevel conns gen nodes [(a, ia), (b, ib)] = E2 := rfl
  have hE2q : E2.nextQueue = [(c, outA), (c, outB)] := by
    rw [hE2.2.1, hE1q, hfilb]
    simp [hcbt]
  have hfc2 : E2.nodes.find? (fun m => m.id == c) = some nC := by
    rw [hE2def, processEntry_find?_ne conns gen E1 (b, ib) c (Ne.symm hcb)]
    rw [hE1def, processEntry_find?_ne conns gen base (a, ia) c (Ne.symm hca)]
    exact hfc
  set base2 : LevelAcc := { nodes := E2.nodes, nextQueue := [], trace := [] } with hbase2
  have hF1 := processEntry_ok conns gen base2 c outA o1 nC hfc2 hgc1
  set F1 := processEntry conns gen base2 (c, outA) with hF1def
  have hfcF1 : F1.nodes.find? (fun m => m.id == c) =
      some { nC with data := markCompleted o1 (markRunning outA nC.data) } := by
    rw [hF1.1, find?_updateNode_self]
    rw [show base2.nodes = E2.nodes from rfl, hfc2]
    rfl
  have hF2 := processEntry_ok conns gen F1 c outB o2
    { nC with data := markCompleted o1 (markRunning outA nC.data) } hfcF1 hgc2
  set F2 := processEntry conns gen F1 (c, outB) with hF2def
  have hL2 : processLevel conns gen E2.nodes [(c, outA), (c, outB)] = F2 := rfl
  refine ⟨by rw [hL1]; exact hE2q, ?_, ?_⟩
  · rw [hL1, hE2q, hL2, hF2.2.2, hF1.2.2]
    rfl
  · rw [hL1, hE2q, hL2]
    intro m hm hid
    rw [hF2.1, hF1.1, updateNode_comp] at hm
    exact mem_updateNode_id c _ base2.nodes
      (fun d => d.status = NodeStatus.completed ∧ d.input = outB ∧ d.output = o2)
      (fun d => ⟨rfl, rfl, rfl⟩) m hm hid

/-- C5 witness: the diamond `a → c ← b` run with the echoing client. -/
theorem C5_fan_in_double_invocation_witness :
    (processLevel [aToC, bToC] genEcho trioNodes [("a", "x"), ("b", "x")]).nextQueue
      = [("c", "x!"), ("c", "x!")]
    ∧ (processLevel [aToC, bToC] genEcho
        (processLevel [aToC, bToC] genEcho trioNodes [("a", "x"), ("b", "x")]).nodes
        (processLevel [aToC, bToC] genEcho trioNodes [("a", "x"), ("b", "x")]).nextQueue).trace
      = [("c", "x!"), ("c", "x!")]
    ∧ ∀ m ∈ (processLevel [aToC, bToC] genEcho
        (processLevel [aToC, bToC] genEcho trioNodes [("a", "x"), ("b", "x")]).nodes
        (processLevel [aToC, bToC] genEcho trioNodes [("a", "x"), ("b", "x")]).nextQueue).nodes,
        m.id = "c" → m.data.status = NodeStatus.completed ∧ m.data.input = "x!"
          ∧ m.data.output = "x!!" :=
  C5_fan_in_double_invocation [aToC, bToC] genEcho trioNodes "a" "b" "c" "x" "x" "x!" "x!"
    "x!!" "x!!" aToC bToC (testNode "a" "sa") (testNode "b" "sb") (testNode "c" "sc")
    (by decide) (by decide) (by decide) (by decide) (by decide) (by decide)
    rfl rfl (by decide) rfl (by decide) rfl rfl rfl

/-- C4 counterexample: on the acyclic chain `a → b` with a Generation
Client that always fails, the run terminates but the node `b` — reachable
from the root `a` — ends `idle`, not `completed` or `error` (its only
upstream node failed, so it was never invoked).  The claim as stated is
false for this graph and client. -/
theorem C4_reachable_may_stay_idle :
    Acyclic cexState.connections
    ∧ runFlow genBoom 2 cexState = some cexReport
    ∧ ReachableFromRoot cexState.nodes cexState.connections "b"
    ∧ cexReport.nodes.map (fun n => (n.id, n.data.status))
      = [("a", NodeStatus.error), ("b", NodeStatus.idle)] := by
  refine ⟨⟨fun s => if s = "b" then 1 else 0, ?_⟩, by decide, ?_, by decide⟩
  · intro c hc
    simp only [cexState, List.mem_singleton] at hc
    subst hc
    decide
  · refine ⟨testNode "a" "x", by decide, ?_⟩
    exact Relation.ReflTransGen.single
      ⟨{ id := "c1", source := "a", target := "b" }, by decide, rfl, rfl⟩

/-- C4 (amended): for a well-formed acyclic graph (connection targets
reference existing nodes) the run terminates (some fuel suffices) with
`isRunning` false, every node not reachable from a root keeps status
`idle`, and — when every Generation Client invocation succeeds — every
node reachable from a root ends with status `completed`.  (The original
claim, that every reachable node ends `completed` or `error` for every
client, fails: a node downstream of a failing node is never invoked and
stays `idle`.) -/
theorem C4_acyclic_run_statuses (gen : GenClient) (st : FlowState)
    (hrun : st.isRunning = false)
    (hacyc : Acyclic st.connections)
    (htgt : ∀ cn ∈ st.connections, cn.target ∈ st.nodes.map (fun n => n.id)) :
    ∃ fuel r, runFlow gen fuel st = some r ∧ r.isRunning = false
      ∧ (∀ n ∈ r.nodes, ¬ ReachableFromRoot st.nodes st.connections n.id →
          n.data.status = NodeStatus.idle)
      ∧ ((∀ i s, ∃ o, gen i s = Except.ok o) →
          ∀ n ∈ r.nodes, ReachableFromRoot st.nodes st.connections n.id →
            n.data.status = NodeStatus.completed) := by
  obtain ⟨rank, hrank⟩ := hacyc
  set B : Nat := ((st.nodes.map (fun n => rank n.id)) ++
      (st.connections.map (fun cn => rank cn.target))).foldr max 0 + 1 with hBdef
  have hBtgt : ∀ cn ∈ st.connections, rank cn.target < B := by
    intro cn hcn
    have hmm : rank cn.target ∈ st.connections.map (fun cn2 => rank cn2.target) :=
      List.mem_map.mpr ⟨cn, hcn, rfl⟩
    have h := le_foldr_max (rank cn.target) _
      (List.mem_append_right (st.nodes.map (fun n => rank n.id)) hmm)
    omega
  have hBnode : ∀ n ∈ st.nodes, rank n.id < B := by
    intro n hn
    have hmm : rank n.id ∈ st.nodes.map (fun n2 => rank n2.id) :=
      List.mem_map.mpr ⟨n, hn, rfl⟩
    have h := le_foldr_max (rank n.id) _
      (List.mem_append_left (st.connections.map (fun cn => rank cn.target)) hmm)
    omega
  refine ⟨B, ?_⟩
  by_cases hcond : (getRootNodes st.nodes st.connections).length = 0 ∧ 0 < st.nodes.length
  · refine ⟨⟨resetForRun st.nodes, false, true, []⟩, ?_, rfl, ?_, ?_⟩
    · simp only [runFlow, hrun, Bool.false_eq_true, if_false]
      rw [if_pos hcond]
    · intro n hn _
      simp only [resetForRun, List.mem_map] at hn
      obtain ⟨m, _, rfl⟩ := hn
      rfl
    · intro _ n _ hreach
      obtain ⟨rt, hrt, _⟩ := hreach
      have hr0 : getRootNodes st.nodes st.connections = [] := List.length_eq_zero.mp hcond.1
      rw [hr0] at hrt
      exact absurd hrt (List.not_mem_nil rt)
  · set queue : List (String × String) := (getRootNodes st.nodes st.connections).map
      (fun n => (n.id, st.globalInput)) with hqdef
    have hqrank : ∀ e ∈ queue, 0 ≤ rank e.1 ∧ rank e.1 < B := by
      intro e he
      obtain ⟨n, hn, hpair⟩ := List.mem_map.mp (hqdef ▸ he)
      have hnn : n ∈ st.nodes := by
        simp only [getRootNodes] at hn
        exact List.mem_of_mem_filter hn
      refine ⟨Nat.zero_le _, ?_⟩
      rw [← hpair]
      exact hBnode n hnn
    have hterm := processQueue_terminates st.connections gen rank B hrank hBtgt B 0
      (resetForRun st.nodes) queue hqrank (by omega)
    obtain ⟨out, hout⟩ := Option.isSome_iff_exists.mp hterm
    obtain ⟨fn, ts⟩ := out
    refine ⟨⟨fn, false, false, ts⟩, ?_, rfl, ?_, ?_⟩
    · simp only [runFlow, hrun, Bool.false_eq_true, if_false]
      rw [if_neg hcond, ← hqdef, hout]
    · have hcl : ∀ u v, ReachableFromRoot st.nodes st.connections u →
          Edge st.connections u v → ReachableFromRoot st.nodes st.connections v := by
        rintro u v ⟨rt, hrt, hpath⟩ hedge
        exact ⟨rt, hrt, hpath.tail hedge⟩
      have hqP : ∀ e ∈ queue, ReachableFromRoot st.nodes st.connections e.1 := by
        intro e he
        obtain ⟨n, hn, hpair⟩ := List.mem_map.mp (hqdef ▸ he)
        exact ⟨n, hn, by rw [← hpair]; exact Relation.ReflTransGen.refl⟩
      have hagree := agreeOutside_processQueue st.connections gen hcl B
        (resetForRun st.nodes) queue fn ts hout hqP
      intro n hn hnreach
      have hmem : n ∈ resetForRun st.nodes := agreeOutside_mem_right hagree n hn hnreach
      simp only [resetForRun, List.mem_map] at hmem
      obtain ⟨m, _, rfl⟩ := hmem
      rfl
    · intro hok n hn hreach
      obtain ⟨rt, hrt, hpath⟩ := hreach
      have hqids : ∀ e ∈ queue, e.1 ∈ (resetForRun st.nodes).map (fun n => n.id) := by
        intro e he
        obtain ⟨m, hm, hpair⟩ := List.mem_map.mp (hqdef ▸ he)
        rw [resetForRun_map_id]
        have hmm : m ∈ st.nodes := by
          simp only [getRootNodes] at hm
          exact List.mem_of_mem_filter hm
        exact List.mem_map.mpr ⟨m, hmm, by rw [← hpair]⟩
      have htgt2 : ∀ cn ∈ st.connections,
          cn.target ∈ (resetForRun st.nodes).map (fun n => n.id) := by
        intro cn hcn
        rw [resetForRun_map_id]
        exact htgt cn hcn
      have hex : ∃ e ∈ queue, Reaches st.connections e.1 n.id := by
        refine ⟨(rt.id, st.globalInput), ?_, hpath⟩
        rw [hqdef]
        exact List.mem_map.mpr ⟨rt, hrt, rfl⟩
      exact processQueue_completes st.connections gen hok B (resetForRun st.nodes) queue
        fn ts hout htgt2 hqids n.id hex n hn rfl

/-- C4 witness: the chain `a → b` with the echoing client. -/
theorem C4_acyclic_run_statuses_witness :
    ∃ fuel r, runFlow genEcho fuel chainState = some r ∧ r.isRunning = false
      ∧ (∀ n ∈ r.nodes, ¬ ReachableFromRoot chainState.nodes chainState.connections n.id →
          n.data.status = NodeStatus.idle)
      ∧ ((∀ i s, ∃ o, genEcho i s = Except.ok o) →
          ∀ n ∈ r.nodes, ReachableFromRoot chainState.nodes chainState.connections n.id →
            n.data.status = NodeStatus.completed) :=
  C4_acyclic_run_statuses genEcho chainState rfl
    ⟨fun s => if s = "b" then 1 else 0,
     by intro c hc; simp only [chainState, List.mem_singleton] at hc; subst hc; decide⟩
    (by decide)

/-- C1 witness: a two-node cycle. -/
theorem C1_noStartNode_aborts_witness :
    runFlow genEcho 4
        { nodes := [testNode "a" "sa", testNode "b" "sb"],
          connections := [{ id := "c1", source := "a", target := "b" },
                          { id := "c2", source := "b", target := "a" }],
          globalInput := "g", isRunning := false } =
      some { nodes := resetForRun [testNode "a" "sa", testNode "b" "sb"], isRunning := false,
             noStartNodeAlert := true, trace := [] }
    ∧ ∀ n ∈ resetForRun [testNode "a" "sa", testNode "b" "sb"],
        n.data.status = NodeStatus.idle :=
  C1_noStartNode_aborts genEcho 4 _ rfl (by decide) (by decide)

end FlowAgent
